import Mathlib

/-!
Shallow embedding of the `string-interner` crate (src/src/symbol.rs and
src/src/lib.rs) together with proofs about the claims of its specification.

Conventions of the embedding:
* The target is 64-bit: `usize` is a 64-bit unsigned integer.
* A symbol is represented by its internal integer `value` (the `NonZero*`
  payload) as a `Nat`.  The `NonZero` safety requirement "value ≠ 0" is a
  proposition about that `Nat`, not baked into the type, because the code
  constructs it with `new_unchecked` and may in fact violate it.
* Rust `index as $base_ty` truncates, i.e. reduces modulo `2 ^ w`; the
  subsequent `+ 1` is modelled with wraparound modulo `2 ^ w` (release
  semantics).
* A Rust panic (`expect` in `expect_valid_symbol`) is modelled by `none`
  propagating through `Option`.
-/

set_option autoImplicit false

/-- Bit width of `usize` on the modelled target (64-bit). -/
def usizeBits : Nat := 64

/-- Value of `usize::MAX` on the modelled target. -/
def usizeMax : Nat := 2 ^ usizeBits - 1

/-- Model of `Symbol::try_from_usize` as generated by the macro `gen_symbol_for!` in
src/src/symbol.rs for a variant whose base type is `w` bits wide
(`w = 16` for `SymbolU16`, `w = 32` for `SymbolU32`, `w = 64` for
`SymbolUsize`).  The source is:

    if index < usize::MAX {
        return Some(Self { value: unsafe { new_unchecked(index as $base_ty + 1) } })
    }
    None

Note that the guard compares against `usize::MAX` for every width; the cast
`index as $base_ty` truncates modulo `2 ^ w` and the `+ 1` wraps modulo
`2 ^ w`.  The result is the internal `value` of the constructed symbol. -/
def tryFromUsize (w : Nat) (index : Nat) : Option Nat :=
  if index < usizeMax then some ((index % 2 ^ w + 1) % 2 ^ w) else none

/-- Model of `Symbol::to_usize`: `self.value.get() as usize - 1` (the value is expected
to be at least 1, so the subtraction is modelled as truncating `Nat`
subtraction). -/
def toUsize (value : Nat) : Nat := value - 1

namespace SymbolU16

/-- Instance `SymbolU16::try_from_usize` (base type `u16`). -/
def try_from_usize (index : Nat) : Option Nat := tryFromUsize 16 index

/-- Instance `SymbolU16::to_usize`. -/
def to_usize (value : Nat) : Nat := toUsize value

end SymbolU16

namespace SymbolU32

/-- Instance `SymbolU32::try_from_usize` (base type `u32`). -/
def try_from_usize (index : Nat) : Option Nat := tryFromUsize 32 index

/-- Instance `SymbolU32::to_usize`. -/
def to_usize (value : Nat) : Nat := toUsize value

end SymbolU32

namespace SymbolUsize

/-- Instance `SymbolUsize::try_from_usize` (base type `usize`). -/
def try_from_usize (index : Nat) : Option Nat := tryFromUsize usizeBits index

/-- Instance `SymbolUsize::to_usize`. -/
def to_usize (value : Nat) : Nat := toUsize value

end SymbolUsize

/-- Model of `expect_valid_symbol` from src/src/symbol.rs:
`S::try_from_usize(index).expect("encountered invalid symbol")`.
The panic on `None` is modelled by returning `none`. -/
def expect_valid_symbol (w : Nat) (index : Nat) : Option Nat :=
  tryFromUsize w index

/-- First-match lookup in the association-list model of the interner's
`HashMap<PinnedStr, S>`.  Keys are the interned strings (the map hashes and
compares the pointed-to string contents), values are symbols. -/
def lookup : List (String × Nat) → String → Option Nat
  | [], _ => none
  | (k, v) :: rest, key => if k = key then some v else lookup rest key

/-- Model of `HashMap::insert` on the association-list model: replaces the value of an
existing key, otherwise appends the new entry. -/
def insertEntry : List (String × Nat) → String → Nat → List (String × Nat)
  | [], k, v => [(k, v)]
  | (k0, v0) :: rest, k, v =>
      if k0 = k then (k, v) :: rest else (k0, v0) :: insertEntry rest k v

/-- The `StringInterner<S, H>` state from src/src/lib.rs: the deduplication
map from string content to symbol, and the ordered storage `values`
(`Vec<Pin<Box<str>>>` — in the model the strings themselves; addresses are
not modelled).  The symbol width `w` is a parameter of the operations, as
`S` is a type parameter in the source. -/
structure StringInterner where
  map : List (String × Nat)
  values : List String
  deriving Repr, DecidableEq

namespace StringInterner

/-- Model of `StringInterner::new` (also the model of `with_capacity`,
`with_hasher` and `with_capacity_and_hasher`: capacity and hasher have no
observable effect in the model). -/
def new : StringInterner := ⟨[], []⟩

/-- Model of `StringInterner::len`: `self.values.len()`. -/
def len (si : StringInterner) : Nat := si.values.length

/-- Model of `StringInterner::make_symbol`: converts the current `len` to a symbol.
The source writes `S::from_usize(self.len())`; the `Symbol` trait of
src/src/symbol.rs declares no `from_usize`, and the only index-to-symbol
conversion the crate defines is `expect_valid_symbol`, which the spec
describes as the converter used here ("An internal helper converts
index→symbol and aborts the operation irrecoverably if the index is out of
range").  The model therefore resolves the call to `expect_valid_symbol`. -/
def make_symbol (w : Nat) (si : StringInterner) : Option Nat :=
  expect_valid_symbol w si.len

/-- Model of `StringInterner::intern`: make the next symbol, push the new string into
storage, insert the (content ↦ symbol) entry into the map, return the
symbol.  `none` models the panic of `expect_valid_symbol`. -/
def intern (w : Nat) (si : StringInterner) (newVal : String) :
    Option (Nat × StringInterner) :=
  match si.make_symbol w with
  | none => none
  | some newId =>
      some (newId, ⟨insertEntry si.map newVal newId, si.values ++ [newVal]⟩)

/-- Model of `StringInterner::get_or_intern`: look the string up in the map; on a hit
return the existing symbol and leave the state unchanged, on a miss defer to
`intern`. -/
def get_or_intern (w : Nat) (si : StringInterner) (val : String) :
    Option (Nat × StringInterner) :=
  match lookup si.map val with
  | some sym => some (sym, si)
  | none => si.intern w val

/-- Model of `StringInterner::resolve`: `self.values.get(symbol.to_usize())`. -/
def resolve (si : StringInterner) (symbol : Nat) : Option String :=
  si.values.get? (toUsize symbol)

/-- Model of `StringInterner::get`: pure map lookup, no mutation. -/
def get (si : StringInterner) (val : String) : Option Nat :=
  lookup si.map val

/-- Model of `StringInterner::reserve`: only touches capacities, which the model does
not observe. -/
def reserve (si : StringInterner) (_additional : Nat) : StringInterner := si

/-- Model of `StringInterner::shrink_to_fit`: only touches capacities, which the model
does not observe. -/
def shrink_to_fit (si : StringInterner) : StringInterner := si

end StringInterner

/-- The map entries built by `Clone for StringInterner`:
`values.iter().enumerate().map(|(i, s)| (PinnedStr::from_str(s), S::from_usize(i)))`,
starting at index `i`.  `S::from_usize` resolves to `expect_valid_symbol`
(see `StringInterner.make_symbol`); its panic is modelled by `none`. -/
def cloneEntries (w : Nat) : Nat → List String → Option (List (String × Nat))
  | _, [] => some []
  | i, s :: rest =>
      match expect_valid_symbol w i, cloneEntries w (i + 1) rest with
      | some v, some es => some ((s, v) :: es)
      | _, _ => none

namespace StringInterner

/-- Model of `Clone for StringInterner`: clone the storage, then re-derive the map
from the cloned storage with `HashMap::extend` over the enumerated values
(modelled by a fold of `insertEntry` over `cloneEntries`). -/
def clone (w : Nat) (si : StringInterner) : Option StringInterner :=
  match cloneEntries w 0 si.values with
  | none => none
  | some es =>
      some ⟨es.foldl (fun m e => insertEntry m e.1 e.2) [], si.values⟩

/-- Model of `Extend for StringInterner`: `for s in iter { self.get_or_intern(s); }`. -/
def extend (w : Nat) : StringInterner → List String → Option StringInterner
  | si, [] => some si
  | si, t :: rest =>
      match si.get_or_intern w t with
      | none => none
      | some (_, si2) => extend w si2 rest

/-- Model of `FromIterator for StringInterner`: start from `with_capacity`
(observably empty) and `extend` with the items. -/
def from_iter (w : Nat) (items : List String) : Option StringInterner :=
  extend w StringInterner.new items

end StringInterner

/-- Observer collecting the symbols returned by a sequence of
`get_or_intern` calls together with the final state. -/
def internSeq (w : Nat) : StringInterner → List String → Option (List Nat × StringInterner)
  | si, [] => some ([], si)
  | si, t :: rest =>
      match si.get_or_intern w t with
      | none => none
      | some (s, si2) =>
          match internSeq w si2 rest with
          | none => none
          | some (ss, sif) => some (s :: ss, sif)

/-- The canonical map contents for a storage sequence `vals` whose first
element carries index `n`: entry `i` maps the string at position `i` to the
symbol value `n + i + 1` (the interner's symbols are index + 1). -/
def canonMap (n : Nat) : List String → List (String × Nat)
  | [] => []
  | s :: rest => (s, n + 1) :: canonMap (n + 1) rest

/-- The 1:1 correspondence invariant of the interner: the map is exactly the
canonical index of the storage sequence, and the stored strings are
pairwise distinct. -/
def Invariant (si : StringInterner) : Prop :=
  si.map = canonMap 0 si.values ∧ si.values.Nodup

instance (si : StringInterner) : Decidable (Invariant si) := by
  unfold Invariant; infer_instance

theorem tryFromUsize_eq_of_lt {w i : Nat} (h1 : i < usizeMax) (h2 : i + 1 < 2 ^ w) :
    tryFromUsize w i = some (i + 1) := by
  unfold tryFromUsize
  rw [if_pos h1, Nat.mod_eq_of_lt (Nat.lt_of_succ_lt h2), Nat.mod_eq_of_lt h2]

theorem usizeMax_eq : usizeMax = 18446744073709551615 := by
  norm_num [usizeMax, usizeBits]

/-- C1: the claim states that `try_from_usize` fails exactly at or beyond the
type's maximum minus the zero sentinel.  The code instead guards every width
with `index < usize::MAX`: `SymbolU16` accepts `2^16 - 1` (yielding internal
value `0`, an invalid `NonZeroU16`) and `2^16` (yielding value `1`, a
duplicate of index `0`), and `SymbolU32` accepts `2^32 - 1` likewise; only
`SymbolUsize` matches the claimed range. -/
theorem c1_try_from_usize_width_guard :
    SymbolU16.try_from_usize (2 ^ 16 - 1) = some 0 ∧
    SymbolU16.try_from_usize (2 ^ 16) = some 1 ∧
    SymbolU32.try_from_usize (2 ^ 32 - 1) = some 0 ∧
    SymbolUsize.try_from_usize usizeMax = none ∧
    SymbolUsize.try_from_usize (usizeMax - 1) = some usizeMax := by
  refine ⟨by decide, by decide, ?_, ?_, ?_⟩
  · show tryFromUsize 32 (2 ^ 32 - 1) = some 0
    rw [tryFromUsize, if_pos (by rw [usizeMax_eq]; norm_num)]
    norm_num
  · show tryFromUsize 64 usizeMax = none
    rw [tryFromUsize, if_neg (lt_irrefl usizeMax)]
  · show tryFromUsize 64 (usizeMax - 1) = some usizeMax
    rw [tryFromUsize, if_pos (by rw [usizeMax_eq]; norm_num)]
    rw [usizeMax_eq]; norm_num

/-- C2: for every index representable in the symbol's width (the zero value
being reserved, the largest representable index is the base type's maximum
minus 2 as a `usize` index), `to_usize` inverts `try_from_usize`, for each
of `SymbolU16`, `SymbolU32` and `SymbolUsize`. -/
theorem c2_roundtrip (i : Nat) :
    (i ≤ 2 ^ 16 - 2 →
      ∃ v, SymbolU16.try_from_usize i = some v ∧ SymbolU16.to_usize v = i) ∧
    (i ≤ 2 ^ 32 - 2 →
      ∃ v, SymbolU32.try_from_usize i = some v ∧ SymbolU32.to_usize v = i) ∧
    (i ≤ 2 ^ 64 - 2 →
      ∃ v, SymbolUsize.try_from_usize i = some v ∧ SymbolUsize.to_usize v = i) := by
  have hmax : usizeMax = 18446744073709551615 := usizeMax_eq
  refine ⟨fun h => ⟨i + 1, ?_, rfl⟩, fun h => ⟨i + 1, ?_, rfl⟩, fun h => ⟨i + 1, ?_, rfl⟩⟩
  · exact tryFromUsize_eq_of_lt (by omega) (by norm_num at h ⊢; omega)
  · exact tryFromUsize_eq_of_lt (by omega) (by norm_num at h ⊢; omega)
  · exact tryFromUsize_eq_of_lt (by omega) (by norm_num [usizeBits] at h ⊢; omega)

/-- C2 witness: the round trip at the concrete index 5 for all three symbol
widths. -/
theorem c2_roundtrip_witness :
    (∃ v, SymbolU16.try_from_usize 5 = some v ∧ SymbolU16.to_usize v = 5) ∧
    (∃ v, SymbolU32.try_from_usize 5 = some v ∧ SymbolU32.to_usize v = 5) ∧
    (∃ v, SymbolUsize.try_from_usize 5 = some v ∧ SymbolUsize.to_usize v = 5) :=
  ⟨(c2_roundtrip 5).1 (by norm_num), (c2_roundtrip 5).2.1 (by norm_num),
    (c2_roundtrip 5).2.2 (by norm_num)⟩

/-- C10: the claim states that every index accepted by `try_from_usize`
yields internal value `index + 1` without wrapping to zero, so the
`new_unchecked` nonzero precondition holds.  The code accepts
`2^16 - 1` for `SymbolU16` and `2^32 - 1` for `SymbolU32` (the guard only
checks `index < usize::MAX`) and the stored value wraps to `0` there,
violating both the claimed equation and the nonzero precondition. -/
theorem c10_nonzero_precondition_violated :
    SymbolU16.try_from_usize (2 ^ 16 - 1) = some 0 ∧ ¬ (0 = (2 ^ 16 - 1) + 1) ∧
    SymbolU32.try_from_usize (2 ^ 32 - 1) = some 0 ∧ ¬ (0 = (2 ^ 32 - 1) + 1) := by
  refine ⟨by decide, by norm_num, ?_, by norm_num⟩
  show tryFromUsize 32 (2 ^ 32 - 1) = some 0
  rw [tryFromUsize, if_pos (by rw [usizeMax_eq]; norm_num)]
  norm_num

theorem lookup_insertEntry_self (m : List (String × Nat)) (k : String) (v : Nat) :
    lookup (insertEntry m k v) k = some v := by
  induction m with
  | nil => simp [insertEntry, lookup]
  | cons e rest ih =>
      obtain ⟨k0, v0⟩ := e
      by_cases h : k0 = k
      · simp [insertEntry, h, lookup]
      · simp [insertEntry, h, lookup, ih]

theorem insertEntry_of_lookup_none {m : List (String × Nat)} {k : String} (v : Nat)
    (h : lookup m k = none) : insertEntry m k v = m ++ [(k, v)] := by
  induction m with
  | nil => rfl
  | cons e rest ih =>
      obtain ⟨k0, v0⟩ := e
      simp only [lookup] at h
      by_cases hk : k0 = k
      · rw [if_pos hk] at h; cases h
      · rw [if_neg hk] at h
        simp [insertEntry, hk, ih h]

theorem lookup_append_of_none {m1 : List (String × Nat)} {k : String}
    (m2 : List (String × Nat)) (h : lookup m1 k = none) :
    lookup (m1 ++ m2) k = lookup m2 k := by
  induction m1 with
  | nil => rfl
  | cons e rest ih =>
      obtain ⟨k0, v0⟩ := e
      simp only [lookup] at h ⊢
      by_cases hk : k0 = k
      · rw [if_pos hk] at h; cases h
      · rw [if_neg hk] at h ⊢; exact ih h

theorem canonMap_length (n : Nat) (vals : List String) :
    (canonMap n vals).length = vals.length := by
  induction vals generalizing n with
  | nil => rfl
  | cons v vs ih => simp [canonMap, ih]

theorem canonMap_append :
    ∀ (n : Nat) (xs : List String) (t : String),
      canonMap n (xs ++ [t]) = canonMap n xs ++ [(t, n + xs.length + 1)]
  | n, [], t => by simp [canonMap]
  | n, x :: xs, t => by
      show (x, n + 1) :: canonMap (n + 1) (xs ++ [t]) =
        ((x, n + 1) :: canonMap (n + 1) xs) ++ [(t, n + (xs.length + 1) + 1)]
      rw [canonMap_append (n + 1) xs t]
      have harith : n + 1 + xs.length + 1 = n + (xs.length + 1) + 1 := by omega
      rw [harith, List.cons_append]

theorem canonMap_keys (n : Nat) (vals : List String) :
    (canonMap n vals).map Prod.fst = vals := by
  induction vals generalizing n with
  | nil => rfl
  | cons v vs ih => simp [canonMap, ih]

theorem lookup_canonMap_eq_none {t : String} :
    ∀ (n : Nat) (vals : List String), lookup (canonMap n vals) t = none ↔ t ∉ vals := by
  intro n vals
  induction vals generalizing n with
  | nil => simp [canonMap, lookup]
  | cons v vs ih =>
      simp only [canonMap, lookup, List.mem_cons]
      by_cases hv : v = t
      · simp [hv]
      · simp only [if_neg hv, ih]
        constructor
        · intro hn
          exact fun hor => hor.elim (fun he => hv he.symm) hn
        · intro hn
          exact fun hm => hn (Or.inr hm)

theorem lookup_canonMap_some {t : String} :
    ∀ (vals : List String) (n v : Nat), lookup (canonMap n vals) t = some v →
      ∃ i, vals.get? i = some t ∧ v = n + i + 1
  | [], _, _, h => by cases h
  | x :: xs, n, v, h => by
      simp only [canonMap, lookup] at h
      by_cases hx : x = t
      · rw [if_pos hx] at h
        exact ⟨0, by simp [hx], by cases h; omega⟩
      · rw [if_neg hx] at h
        obtain ⟨i, hi, hv⟩ := lookup_canonMap_some xs (n + 1) v h
        exact ⟨i + 1, by simpa using hi, by omega⟩

theorem lookup_canonMap_get? :
    ∀ (vals : List String), vals.Nodup → ∀ (n i : Nat) (t : String),
      vals.get? i = some t → lookup (canonMap n vals) t = some (n + i + 1)
  | [], _, _, i, _, h => by cases h : ([] : List String).get? i <;> simp_all
  | v :: vs, hnd, n, 0, t, h => by
      simp only [List.get?_cons_zero, Option.some.injEq] at h
      subst h
      simp [canonMap, lookup]
  | v :: vs, hnd, n, i + 1, t, h => by
      simp only [List.get?_cons_succ] at h
      have ht : t ∈ vs := List.get?_mem h
      have hv : ¬ v = t := fun he => (List.nodup_cons.mp hnd).1 (he ▸ ht)
      simp only [canonMap, lookup, if_neg hv]
      rw [lookup_canonMap_get? vs (List.nodup_cons.mp hnd).2 (n + 1) i t h]
      congr 1
      omega

theorem invariant_new : Invariant StringInterner.new :=
  ⟨rfl, List.nodup_nil⟩

theorem invariant_lookup_none {si : StringInterner} (h : Invariant si) {t : String} :
    lookup si.map t = none ↔ t ∉ si.values := by
  rw [h.1]; exact lookup_canonMap_eq_none 0 si.values

theorem invariant_fresh {si : StringInterner} (h : Invariant si) {t : String}
    (ht : t ∉ si.values) :
    Invariant ⟨si.map ++ [(t, si.len + 1)], si.values ++ [t]⟩ := by
  refine ⟨?_, by simp [List.nodup_append, h.2, ht]⟩
  show si.map ++ [(t, si.len + 1)] = canonMap 0 (si.values ++ [t])
  rw [canonMap_append 0 si.values t, ← h.1]
  simp [StringInterner.len]

theorem get_or_intern_found {w : Nat} {si : StringInterner} {t : String} {s : Nat}
    (h : lookup si.map t = some s) : si.get_or_intern w t = some (s, si) := by
  unfold StringInterner.get_or_intern
  rw [h]

theorem get_or_intern_fresh {w : Nat} {si : StringInterner} {t : String}
    (hl : lookup si.map t = none) (h1 : si.len < usizeMax) (h2 : si.len + 1 < 2 ^ w) :
    si.get_or_intern w t =
      some (si.len + 1, ⟨si.map ++ [(t, si.len + 1)], si.values ++ [t]⟩) := by
  have hm : si.make_symbol w = some (si.len + 1) := by
    unfold StringInterner.make_symbol expect_valid_symbol
    exact tryFromUsize_eq_of_lt h1 h2
  simp only [StringInterner.get_or_intern, StringInterner.intern, hl, hm,
    insertEntry_of_lookup_none (si.len + 1) hl]

theorem get_or_intern_spec {w : Nat} {si : StringInterner} (t : String)
    (hInv : Invariant si) (h1 : si.len < usizeMax) (h2 : si.len + 1 < 2 ^ w) :
    ∃ s si', si.get_or_intern w t = some (s, si') ∧
      Invariant si' ∧
      si'.resolve s = some t ∧
      lookup si'.map t = some s ∧
      (t ∈ si.values → si' = si) ∧
      (t ∉ si.values → si'.values = si.values ++ [t] ∧ s = si.len + 1) := by
  by_cases ht : t ∈ si.values
  · obtain ⟨s0, hl⟩ : ∃ s0, lookup si.map t = some s0 := by
      cases hcase : lookup si.map t with
      | none => exact absurd ((invariant_lookup_none hInv).mp hcase) (by simpa using ht)
      | some s0 => exact ⟨s0, rfl⟩
    obtain ⟨i, hget, hv⟩ := lookup_canonMap_some si.values 0 s0 (hInv.1 ▸ hl)
    refine ⟨s0, si, get_or_intern_found hl, hInv, ?_, hl, fun _ => rfl,
      fun hc => absurd ht hc⟩
    show si.values.get? (toUsize s0) = some t
    have : toUsize s0 = i := by unfold toUsize; omega
    rw [this, hget]
  · have hl : lookup si.map t = none := (invariant_lookup_none hInv).mpr ht
    refine ⟨si.len + 1, _, get_or_intern_fresh hl h1 h2, invariant_fresh hInv ht, ?_, ?_,
      fun hc => absurd hc ht, fun _ => ⟨rfl, rfl⟩⟩
    · show (si.values ++ [t]).get? (toUsize (si.len + 1)) = some t
      have : toUsize (si.len + 1) = si.values.length := by
        unfold toUsize StringInterner.len; omega
      rw [this, List.get?_concat_length]
    · show lookup (si.map ++ [(t, si.len + 1)]) t = some (si.len + 1)
      rw [lookup_append_of_none _ hl]
      simp [lookup]

theorem get_or_intern_lookup {w : Nat} {si si' : StringInterner} {t : String} {s : Nat}
    (h : si.get_or_intern w t = some (s, si')) : lookup si'.map t = some s := by
  unfold StringInterner.get_or_intern at h
  cases hl : lookup si.map t with
  | some s0 =>
      simp only [hl, Option.some.injEq, Prod.mk.injEq] at h
      obtain ⟨hs, hsi⟩ := h
      subst hs; subst hsi
      exact hl
  | none =>
      simp only [hl, StringInterner.intern] at h
      cases hm : si.make_symbol w with
      | none => simp only [hm] at h; cases h
      | some v =>
          simp only [hm, Option.some.injEq, Prod.mk.injEq] at h
          obtain ⟨hs, hsi⟩ := h
          subst hs; subst hsi
          exact lookup_insertEntry_self si.map t v

theorem get_or_intern_values {w : Nat} {si si' : StringInterner} {t : String} {s : Nat}
    (h : si.get_or_intern w t = some (s, si')) :
    si'.values = si.values ∨ si'.values = si.values ++ [t] := by
  unfold StringInterner.get_or_intern at h
  cases hl : lookup si.map t with
  | some s0 =>
      simp only [hl, Option.some.injEq, Prod.mk.injEq] at h
      obtain ⟨hs, hsi⟩ := h
      subst hsi
      exact Or.inl rfl
  | none =>
      simp only [hl, StringInterner.intern] at h
      cases hm : si.make_symbol w with
      | none => simp only [hm] at h; cases h
      | some v =>
          simp only [hm, Option.some.injEq, Prod.mk.injEq] at h
          obtain ⟨hs, hsi⟩ := h
          subst hsi
          exact Or.inr rfl

/-- C3: whenever `get_or_intern` returns a symbol (models the call completing
without the capacity panic), calling it again with the same text on the
resulting interner returns the same symbol and the identical state, so the
length after the second call equals the length after the first and storage
does not grow. -/
theorem c3_get_or_intern_idempotent {w : Nat} {si si' : StringInterner}
    {t : String} {s : Nat} (h : si.get_or_intern w t = some (s, si')) :
    si'.get_or_intern w t = some (s, si') ∧ si'.len = si'.len :=
  ⟨get_or_intern_found (get_or_intern_lookup h), rfl⟩

/-- C3 witness: interning `"a"` into the empty interner and then again into
the result. -/
theorem c3_witness :
    (⟨[("a", 1)], ["a"]⟩ : StringInterner).get_or_intern 32 "a" =
        some (1, ⟨[("a", 1)], ["a"]⟩) ∧
    (⟨[("a", 1)], ["a"]⟩ : StringInterner).len = (⟨[("a", 1)], ["a"]⟩ : StringInterner).len :=
  @c3_get_or_intern_idempotent 32 StringInterner.new ⟨[("a", 1)], ["a"]⟩ "a" 1 rfl

/-- C4: any symbol returned by `get_or_intern t` resolves, on the interner the
call produced, to exactly the interned text.  The interner is assumed
well-formed (its map/storage correspondence holds) and small enough that the
new index neither reaches `usize::MAX` nor wraps in the symbol width. -/
theorem c4_resolve_returns_interned {w : Nat} {si si' : StringInterner}
    {t : String} {s : Nat} (hInv : Invariant si)
    (h1 : si.len < usizeMax) (h2 : si.len + 1 < 2 ^ w)
    (h : si.get_or_intern w t = some (s, si')) :
    si'.resolve s = some t := by
  obtain ⟨s0, si0, heq, _, hres, _, _, _⟩ := get_or_intern_spec t hInv h1 h2
  rw [h] at heq
  cases heq
  exact hres

/-- C4 witness: interning `"a"` into the empty interner and resolving the
returned symbol. -/
theorem c4_witness :
    (⟨[("a", 1)], ["a"]⟩ : StringInterner).resolve 1 = some "a" :=
  @c4_resolve_returns_interned 32 StringInterner.new ⟨[("a", 1)], ["a"]⟩ "a" 1
    (by decide) (by decide) (by decide) rfl

/-- C5: concretely, interning the sequence `["a", "b", "a", "c"]` into a fresh
interner yields symbols with indices `[0, 1, 0, 2]` and a final length of 3;
in general (second conjunct), for a well-formed interner with room for two
more entries, two successive `get_or_intern` calls return equal symbols if
and only if the interned texts are equal — equal text yields the same symbol
and distinct text yields distinct symbols. -/
theorem c5_first_seen_order :
    ((internSeq 32 StringInterner.new ["a", "b", "a", "c"]).map
        (fun p => (p.1.map toUsize, p.2.len)) = some ([0, 1, 0, 2], 3)) ∧
    (∀ (w : Nat) (si si1 si2 : StringInterner) (t1 t2 : String) (s1 s2 : Nat),
      Invariant si → si.len + 1 < usizeMax → si.len + 2 < 2 ^ w →
      si.get_or_intern w t1 = some (s1, si1) →
      si1.get_or_intern w t2 = some (s2, si2) →
      (s1 = s2 ↔ t1 = t2)) := by
  refine ⟨rfl, ?_⟩
  intro w si si1 si2 t1 t2 s1 s2 hInv hu hw h1 h2
  obtain ⟨s1', si1', heq1, hInv1, hres1, hlk1, _, _⟩ :=
    get_or_intern_spec (w := w) t1 hInv (by omega) (by omega)
  rw [h1] at heq1
  cases heq1
  have hlen1 : si1.len ≤ si.len + 1 := by
    rcases get_or_intern_values h1 with hv | hv <;>
      simp [StringInterner.len, hv]
  obtain ⟨s2', si2', heq2, hInv2, hres2, hlk2, _, _⟩ :=
    get_or_intern_spec (w := w) t2 hInv1 (by omega) (by omega)
  rw [h2] at heq2
  cases heq2
  constructor
  · intro hs
    have hlt : toUsize s1 < si1.values.length :=
      (List.get?_eq_some.mp hres1).1
    have hres1' : si2.resolve s1 = some t1 := by
      rcases get_or_intern_values h2 with hv | hv <;>
        · show si2.values.get? (toUsize s1) = some t1
          rw [hv]
          first
            | exact hres1
            | rw [List.get?_append hlt]; exact hres1
    rw [hs, hres2] at hres1'
    exact (Option.some.injEq _ _ ▸ hres1').symm ▸ rfl
  · intro ht
    subst ht
    have := get_or_intern_found (w := w) hlk1
    rw [h2] at this
    cases this
    rfl

/-- C5 witness: interning `"x"` and then `"y"` into the empty interner with
32-bit symbols yields symbols 1 and 2; distinct texts yield distinct
symbols. -/
theorem c5_witness : (1 : Nat) = 2 ↔ "x" = "y" :=
  c5_first_seen_order.2 32 StringInterner.new ⟨[("x", 1)], ["x"]⟩
    ⟨[("x", 1), ("y", 2)], ["x", "y"]⟩ "x" "y" 1 2 (by decide) (by decide)
    (by decide) rfl rfl

theorem cloneEntries_eq {w : Nat} :
    ∀ (vals : List String) (n : Nat), n + vals.length ≤ usizeMax →
      n + vals.length < 2 ^ w →
      cloneEntries w n vals = some (canonMap n vals)
  | [], _, _, _ => rfl
  | v :: vs, n, h1, h2 => by
      have hs : expect_valid_symbol w n = some (n + 1) := by
        unfold expect_valid_symbol
        exact tryFromUsize_eq_of_lt (by simp at h1; omega) (by simp at h2; omega)
      have hrest : cloneEntries w (n + 1) vs = some (canonMap (n + 1) vs) :=
        cloneEntries_eq vs (n + 1) (by simp at h1 ⊢; omega) (by simp at h2 ⊢; omega)
      simp only [cloneEntries, hs, hrest, canonMap]

theorem foldl_insertEntry :
    ∀ (es acc : List (String × Nat)), (es.map Prod.fst).Nodup →
      (∀ e ∈ es, lookup acc e.1 = none) →
      es.foldl (fun m e => insertEntry m e.1 e.2) acc = acc ++ es
  | [], acc, _, _ => by simp
  | e :: rest, acc, hnd, hfresh => by
      obtain ⟨k, v⟩ := e
      have hacc : lookup acc k = none := hfresh (k, v) (by simp)
      have hknotin : k ∉ rest.map Prod.fst := (List.nodup_cons.mp hnd).1
      have hstep :
          rest.foldl (fun m e => insertEntry m e.1 e.2) (acc ++ [(k, v)]) =
            (acc ++ [(k, v)]) ++ rest := by
        refine foldl_insertEntry rest (acc ++ [(k, v)]) (List.nodup_cons.mp hnd).2 ?_
        intro e he
        rw [lookup_append_of_none _ (hfresh e (by simp [he]))]
        have hne : ¬ k = e.1 := fun hk =>
          hknotin (hk ▸ List.mem_map_of_mem Prod.fst he)
        simp [lookup, hne]
      simp only [List.foldl_cons, insertEntry_of_lookup_none v hacc, hstep,
        List.append_assoc, List.singleton_append]

theorem clone_eq {w : Nat} {si : StringInterner} (hInv : Invariant si)
    (h1 : si.len ≤ usizeMax) (h2 : si.len < 2 ^ w) :
    si.clone w = some ⟨canonMap 0 si.values, si.values⟩ := by
  unfold StringInterner.clone
  have hce : cloneEntries w 0 si.values = some (canonMap 0 si.values) :=
    cloneEntries_eq si.values 0 (by simpa using h1) (by simpa using h2)
  have hfold :
      (canonMap 0 si.values).foldl (fun m e => insertEntry m e.1 e.2) [] =
        [] ++ canonMap 0 si.values :=
    foldl_insertEntry _ [] (by rw [canonMap_keys]; exact hInv.2)
      (fun _ _ => rfl)
  simp only [hce, hfold, List.nil_append]

/-- C6: the map/storage 1:1 correspondence (`Invariant`): it holds for a
fresh interner, is preserved by `get_or_intern` (for states small enough not
to hit the symbol-width wraparound), holds for the result of `clone`, and is
untouched by `reserve` and `shrink_to_fit` (`get` and `resolve` do not
mutate the state).  The final conjunct unfolds the correspondence: map and
storage have equal length, and the text stored at position `i` is mapped to
exactly the symbol of index `i` (internal value `i + 1`). -/
theorem c6_map_storage_correspondence :
    Invariant StringInterner.new ∧
    (∀ (w : Nat) (si si' : StringInterner) (t : String) (s : Nat),
      Invariant si → si.len < usizeMax → si.len + 1 < 2 ^ w →
      si.get_or_intern w t = some (s, si') → Invariant si') ∧
    (∀ (w : Nat) (si c : StringInterner),
      Invariant si → si.len ≤ usizeMax → si.len < 2 ^ w →
      si.clone w = some c → Invariant c) ∧
    (∀ (si : StringInterner) (n : Nat), Invariant si → Invariant (si.reserve n)) ∧
    (∀ si : StringInterner, Invariant si → Invariant si.shrink_to_fit) ∧
    (∀ si : StringInterner, Invariant si →
      si.map.length = si.values.length ∧
      ∀ (i : Nat) (t : String), si.values.get? i = some t →
        lookup si.map t = some (i + 1) ∧ toUsize (i + 1) = i) := by
  refine ⟨invariant_new, ?_, ?_, fun si n h => h, fun si h => h, ?_⟩
  · intro w si si' t s hInv h1 h2 h
    obtain ⟨s0, si0, heq, hInv0, _, _, _, _⟩ := get_or_intern_spec (w := w) t hInv h1 h2
    rw [h] at heq
    cases heq
    exact hInv0
  · intro w si c hInv h1 h2 h
    rw [clone_eq hInv h1 h2] at h
    cases h
    exact ⟨rfl, hInv.2⟩
  · intro si hInv
    refine ⟨by rw [hInv.1, canonMap_length], ?_⟩
    intro i t hget
    refine ⟨?_, by unfold toUsize; omega⟩
    rw [hInv.1]
    have := lookup_canonMap_get? si.values hInv.2 0 i t hget
    simpa using this

/-- C6 witness: the preservation conjunct applied to interning `"a"` into the
empty interner. -/
theorem c6_witness : Invariant (⟨[("a", 1)], ["a"]⟩ : StringInterner) :=
  c6_map_storage_correspondence.2.1 32 StringInterner.new ⟨[("a", 1)], ["a"]⟩
    "a" 1 (by decide) (by decide) (by decide) rfl

/-- C7: cloning a well-formed interner succeeds, copies the storage, and
re-derives the map as exactly the canonical index of the cloned storage;
every symbol resolves in the clone to the same text as in the original, and
after mutating the clone with `get_or_intern`, every symbol the original
issued (index below the original's length) still resolves in the mutated
clone to the original's text — the original value is untouched throughout,
the model being pure. -/
theorem c7_clone_rederives_map (w : Nat) (si : StringInterner)
    (hInv : Invariant si) (h1 : si.len ≤ usizeMax) (h2 : si.len < 2 ^ w) :
    ∃ c, si.clone w = some c ∧
      c.values = si.values ∧
      c.map = canonMap 0 c.values ∧
      (∀ s, c.resolve s = si.resolve s) ∧
      (∀ (t : String) (s' : Nat) (c' : StringInterner),
        c.get_or_intern w t = some (s', c') →
        ∀ s, toUsize s < si.len → c'.resolve s = si.resolve s) := by
  refine ⟨⟨canonMap 0 si.values, si.values⟩, clone_eq hInv h1 h2, rfl, rfl,
    fun s => rfl, ?_⟩
  intro t s' c' h s hs
  show c'.values.get? (toUsize s) = si.values.get? (toUsize s)
  rcases get_or_intern_values h with hv | hv
  · rw [hv]
  · rw [hv]
    exact List.get?_append hs

/-- C7 witness: cloning the one-entry interner containing `"a"`. -/
theorem c7_witness :
    ∃ c, (⟨[("a", 1)], ["a"]⟩ : StringInterner).clone 32 = some c ∧
      c.values = (⟨[("a", 1)], ["a"]⟩ : StringInterner).values ∧
      c.map = canonMap 0 c.values ∧
      (∀ s, c.resolve s = (⟨[("a", 1)], ["a"]⟩ : StringInterner).resolve s) ∧
      (∀ (t : String) (s' : Nat) (c' : StringInterner),
        c.get_or_intern 32 t = some (s', c') →
        ∀ s, toUsize s < (⟨[("a", 1)], ["a"]⟩ : StringInterner).len →
          c'.resolve s = (⟨[("a", 1)], ["a"]⟩ : StringInterner).resolve s) :=
  c7_clone_rederives_map 32 ⟨[("a", 1)], ["a"]⟩ (by decide) (by decide) (by decide)

/-- C8: the claim states that a new entry exceeding the symbol width's
maximum index makes `get_or_intern` abort irrecoverably (the
`expect_valid_symbol` panic, modelled by `none`).  Instead, for 16-bit
symbols an interner holding `2^16` entries accepts a fresh string: the
width-oblivious guard `index < usize::MAX` passes, the cast wraps, and the
call returns the symbol with internal value 1 — an alias of the symbol of
index 0 — silently corrupting the index/storage correspondence rather than
aborting. -/
theorem c8_no_abort_on_width_overflow {si : StringInterner} {t : String}
    (hlen : si.len = 2 ^ 16) (hl : lookup si.map t = none) :
    si.get_or_intern 16 t =
      some (1, ⟨insertEntry si.map t 1, si.values ++ [t]⟩) := by
  have hm : si.make_symbol 16 = some 1 := by
    unfold StringInterner.make_symbol expect_valid_symbol tryFromUsize
    rw [hlen, if_pos (by rw [usizeMax_eq]; norm_num)]
    norm_num
  simp only [StringInterner.get_or_intern, StringInterner.intern, hl, hm]

/-- C8 witness: a 16-bit-symbol interner whose storage already holds `2^16`
strings accepts one more without aborting. -/
theorem c8_witness :
    (⟨[], List.replicate (2 ^ 16) "x"⟩ : StringInterner).get_or_intern 16 "y" =
      some (1, ⟨insertEntry [] "y" 1, List.replicate (2 ^ 16) "x" ++ ["y"]⟩) :=
  c8_no_abort_on_width_overflow
    (by show (List.replicate (2 ^ 16) "x").length = 2 ^ 16
        exact List.length_replicate _ _)
    rfl

/-- First-seen deduplication: extends `vals` with each item not already
present, in input order; `firstSeen [] items` is the sequence of first
occurrences of `items`. -/
def firstSeen (vals : List String) : List String → List String
  | [] => vals
  | t :: rest =>
      if t ∈ vals then firstSeen vals rest else firstSeen (vals ++ [t]) rest

/-- Modelled from the spec: "build an interner from an ordered sequence of
text items, deduplicating as it goes, equivalent to repeated get-or-intern
calls" — start from an empty interner and fold `get_or_intern` over the
items in order (the failure of a call, i.e. the capacity panic, aborts the
fold). -/
def internEachSpec (w : Nat) (items : List String) : Option StringInterner :=
  items.foldlM (fun si t => (si.get_or_intern w t).map Prod.snd) StringInterner.new

theorem extend_eq_foldlM (w : Nat) :
    ∀ (items : List String) (si : StringInterner),
      StringInterner.extend w si items =
        items.foldlM (fun si t => (si.get_or_intern w t).map Prod.snd) si
  | [], si => rfl
  | t :: rest, si => by
      simp only [StringInterner.extend, List.foldlM_cons]
      cases h : si.get_or_intern w t with
      | none => rfl
      | some p =>
          obtain ⟨s, si2⟩ := p
          simp only [Option.map_some, Option.bind_some]
          exact extend_eq_foldlM w rest si2

theorem extend_spec {w : Nat} :
    ∀ (items : List String) (si : StringInterner), Invariant si →
      si.len + items.length ≤ usizeMax → si.len + items.length < 2 ^ w →
      ∃ si', StringInterner.extend w si items = some si' ∧
        si'.values = firstSeen si.values items ∧ Invariant si'
  | [], si, hInv, _, _ => ⟨si, rfl, rfl, hInv⟩
  | t :: rest, si, hInv, h1, h2 => by
      simp only [List.length_cons] at h1 h2
      obtain ⟨s, si1, heq, hInv1, _, _, hmem, hfresh⟩ :=
        get_or_intern_spec (w := w) t hInv (by omega) (by omega)
      have hlen1 : si1.len ≤ si.len + 1 := by
        rcases get_or_intern_values heq with hv | hv <;>
          simp [StringInterner.len, hv]
      obtain ⟨si', hext, hvals, hInv'⟩ :=
        extend_spec (w := w) rest si1 hInv1 (by omega) (by omega)
      refine ⟨si', ?_, ?_, hInv'⟩
      · simp only [StringInterner.extend, heq]
        exact hext
      · by_cases ht : t ∈ si.values
        · rw [hvals, hmem ht]
          simp [firstSeen, ht]
        · rw [hvals, (hfresh ht).1]
          simp [firstSeen, ht]

/-- C9: building an interner from an ordered sequence (`FromIterator`, which
defers to `Extend`) is the fold of `get_or_intern` over the items starting
from an empty interner (first conjunct, definitional equivalence with the
spec-side definition `internEachSpec`); and for any item sequence short
enough not to exhaust the symbol width, the build succeeds, its storage is
exactly the first occurrences of the items in input order (symbols are
assigned in first-seen order), and the result is well-formed. -/
theorem c9_bulk_construction_equiv :
    (∀ (w : Nat) (items : List String),
      StringInterner.from_iter w items = internEachSpec w items) ∧
    (∀ (w : Nat) (items : List String),
      items.length ≤ usizeMax → items.length < 2 ^ w →
      ∃ si, StringInterner.from_iter w items = some si ∧
        si.values = firstSeen [] items ∧ Invariant si) := by
  constructor
  · intro w items
    unfold StringInterner.from_iter internEachSpec
    exact extend_eq_foldlM w items StringInterner.new
  · intro w items h1 h2
    obtain ⟨si, hext, hvals, hInv⟩ :=
      extend_spec (w := w) items StringInterner.new invariant_new
        (by simpa [StringInterner.new, StringInterner.len] using h1)
        (by simpa [StringInterner.new, StringInterner.len] using h2)
    exact ⟨si, hext, hvals, hInv⟩

/-- C9 witness: building from `["a", "b", "a"]` with 32-bit symbols. -/
theorem c9_witness :
    ∃ si, StringInterner.from_iter 32 ["a", "b", "a"] = some si ∧
      si.values = firstSeen [] ["a", "b", "a"] ∧ Invariant si :=
  c9_bulk_construction_equiv.2 32 ["a", "b", "a"] (by decide) (by decide)
